import Mathlib

/-!
Verification of `plot.py`, a batch script that scans a directory of
simulation report files, extracts three numeric metrics per file via
regular-expression search, aggregates them into a catalog keyed by
protocol name and node count, and renders raw and derived metric charts.

The embedding models strings as `List Char` (ASCII semantics for the
case folding, whitespace and digit classes used by the script), numeric
values as exact rationals extended with infinities and NaN (binary64
rounding is out of scope: none of the verified properties depends on
it), and the two matplotlib rendering loops as pure functions producing
the list of drawn lines plus the list of printed diagnostic lines. The
`plt` color cycle is modelled by the index of the drawn base line, and a
division by zero (Python `ZeroDivisionError`) by an `Option` failure
that aborts the whole rendering pass.
-/

/-- Characters matched by the regex class `\s` (ASCII part). -/
def isSpaceC (c : Char) : Bool :=
  c == ' ' || c == '\t' || c == '\n' || c == '\r' || c == '\x0b' || c == '\x0c'

/-- Characters matched by the regex class `\d` (ASCII part). -/
def isDigitC (c : Char) : Bool :=
  decide (48 ≤ c.toNat) && decide (c.toNat ≤ 57)

/-- Case-insensitive character comparison as performed by `re.IGNORECASE`
on ASCII text: equal, or equal up to the 32 offset between an upper case
letter and its lower case form. -/
def eqCI (a b : Char) : Bool :=
  a == b
    || (decide (65 ≤ a.toNat) && decide (a.toNat ≤ 90) && (b.toNat == a.toNat + 32))
    || (decide (65 ≤ b.toNat) && decide (b.toNat ≤ 90) && (a.toNat == b.toNat + 32))

/-- Case-insensitive equality of two character lists. -/
def ciEqL : List Char → List Char → Bool
  | [], [] => true
  | a :: as, b :: bs => eqCI a b && ciEqL as bs
  | _, _ => false

/-- Try to match `pat` case-insensitively at the start of `s`; on success
return the matched text of `s` together with the remainder. -/
def ciStrip : List Char → List Char → Option (List Char × List Char)
  | [], s => some ([], s)
  | _ :: _, [] => none
  | a :: pr, b :: sr =>
    if eqCI a b then (ciStrip pr sr).map (fun x => (b :: x.1, x.2)) else none

/-- Does `pat` occur case-insensitively at offset `q` of `s`? -/
def ciOccursAt (pat s : List Char) (q : ℕ) : Bool :=
  (ciStrip pat (s.drop q)).isSome

/-- Match the numeric mantissa alternation `\d*\.\d+|\d+` of
`float_pattern` at the start of the input, with the backtracking
semantics of the Python engine (first alternative preferred, greedy
digit runs); returns matched text and remainder. -/
def matchMantissa (s : List Char) : Option (List Char × List Char) :=
  let ds := s.takeWhile isDigitC
  let r := s.dropWhile isDigitC
  match r with
  | '.' :: r2 =>
    let ds2 := r2.takeWhile isDigitC
    let r3 := r2.dropWhile isDigitC
    if ds2.isEmpty then (if ds.isEmpty then none else some (ds, r))
    else some (ds ++ '.' :: ds2, r3)
  | _ => if ds.isEmpty then none else some (ds, r)

/-- Match the optional exponent group `(?:[eE][-+]?\d+)?` of
`float_pattern`; the group matches empty when no full exponent is
present. Returns matched text and remainder. -/
def matchExp : List Char → List Char × List Char
  | [] => ([], [])
  | c :: t =>
    if c == 'e' || c == 'E' then
      match t with
      | [] => ([], c :: t)
      | c2 :: t2 =>
        if c2 == '+' || c2 == '-' then
          let ds := t2.takeWhile isDigitC
          if ds.isEmpty then ([], c :: t) else (c :: c2 :: ds, t2.dropWhile isDigitC)
        else
          let ds := t.takeWhile isDigitC
          if ds.isEmpty then ([], c :: t) else (c :: ds, t.dropWhile isDigitC)
    else ([], c :: t)

/-- Match the numeric alternative `[-+]?(?:\d*\.\d+|\d+)(?:[eE][-+]?\d+)?`
of `float_pattern` at the start of the input. -/
def matchNumeric (s : List Char) : Option (List Char × List Char) :=
  match s with
  | [] => none
  | c :: t =>
    if c == '+' || c == '-' then
      match matchMantissa t with
      | some (m, r) => some (c :: (m ++ (matchExp r).1), (matchExp r).2)
      | none => none
    else
      match matchMantissa (c :: t) with
      | some (m, r) => some (m ++ (matchExp r).1, (matchExp r).2)
      | none => none

/-- Match the full capture group `float_pattern` at the start of the
input: the numeric alternative first, then the `NaN|nan|INF|inf`
literals, which under `re.IGNORECASE` accept any letter case. -/
def matchFloat (s : List Char) : Option (List Char × List Char) :=
  match matchNumeric s with
  | some x => some x
  | none =>
    match ciStrip ['n', 'a', 'n'] s with
    | some x => some x
    | none => ciStrip ['i', 'n', 'f'] s

/-- Match the whole pattern `label\s*:\s*(float_pattern)` at the start of
the input, returning the captured group. -/
def matchAt (label s : List Char) : Option (List Char) :=
  match ciStrip label s with
  | none => none
  | some x =>
    match x.2.dropWhile isSpaceC with
    | ':' :: r2 => (matchFloat (r2.dropWhile isSpaceC)).map Prod.fst
    | _ => none

/-- Model of `re.search` for the field patterns: return the capture of
the leftmost position at which the whole pattern matches. -/
def searchField (label : List Char) : List Char → Option (List Char)
  | [] => none
  | c :: t =>
    match matchAt label (c :: t) with
    | some cap => some cap
    | none => searchField label t

/-- Label of `delivery_re`. -/
def delivery_label : List Char := "delivery_prob".toList

/-- Label of `overhead_re`. -/
def overhead_label : List Char := "overhead_ratio".toList

/-- Label of `latency_re`. -/
def latency_label : List Char := "latency_avg".toList

/-- The three `re.search` calls of the parse loop, combined with the
`if not d or not o or not l` check: all three captures or nothing. -/
def extractStats (content : List Char) : Option (List Char × List Char × List Char) :=
  match searchField delivery_label content, searchField overhead_label content,
      searchField latency_label content with
  | some d, some o, some l => some (d, o, l)
  | _, _, _ => none

/-- Python float values as far as this script can observe them: exact
rationals plus the two infinities and NaN. -/
inductive PFloat where
  | fin (q : ℚ)
  | inf
  | ninf
  | nan
  deriving DecidableEq, Inhabited

/-- Numeric value of a run of decimal digits. -/
def digitsToNat (ds : List Char) : ℕ :=
  ds.foldl (fun a c => a * 10 + (c.toNat - 48)) 0

/-- Parse the optional exponent tail of a float literal; the whole
remainder must be consumed. -/
def parseExpAll : List Char → Option ℤ
  | [] => some 0
  | c :: t =>
    if c == 'e' || c == 'E' then
      match t with
      | c2 :: t2 =>
        if c2 == '+' then
          if !t2.isEmpty && t2.all isDigitC then some (Int.ofNat (digitsToNat t2)) else none
        else if c2 == '-' then
          if !t2.isEmpty && t2.all isDigitC then some (-(Int.ofNat (digitsToNat t2))) else none
        else
          if !t.isEmpty && t.all isDigitC then some (Int.ofNat (digitsToNat t)) else none
      | [] => none
    else none

/-- Exact value of an unsigned decimal float literal (digits, optional
dot, optional exponent); models the numeric sub-grammar of Python
`float` on the literals the capture regex can produce. -/
def parseUnsignedAll (s : List Char) : Option ℚ :=
  let ds := s.takeWhile isDigitC
  let r := s.dropWhile isDigitC
  match r with
  | '.' :: r2 =>
    let ds2 := r2.takeWhile isDigitC
    let r3 := r2.dropWhile isDigitC
    if ds.isEmpty && ds2.isEmpty then none
    else (parseExpAll r3).map (fun e =>
      ((digitsToNat ds : ℚ) + (digitsToNat ds2 : ℚ) / (10 : ℚ) ^ ds2.length) * (10 : ℚ) ^ e)
  | _ =>
    if ds.isEmpty then none
    else (parseExpAll r).map (fun e => (digitsToNat ds : ℚ) * (10 : ℚ) ^ e)

/-- Negation of a Python float value. -/
def PFloat.negv : PFloat → PFloat
  | PFloat.fin q => PFloat.fin (-q)
  | PFloat.inf => PFloat.ninf
  | PFloat.ninf => PFloat.inf
  | PFloat.nan => PFloat.nan

/-- Unsigned part of the Python `float` conversion, restricted to the
lexical forms reachable from the capture regex: the `nan`, `inf` and
`infinity` words case-insensitively, else a numeric literal. -/
def pyFloatPos (s : List Char) : Option PFloat :=
  if ciEqL s ("nan".toList) then some PFloat.nan
  else if ciEqL s ("inf".toList) || ciEqL s ("infinity".toList) then some PFloat.inf
  else (parseUnsignedAll s).map PFloat.fin

/-- Model of Python `float(x)` on the strings the capture regex can
produce (`None` models a raised `ValueError`). -/
def pyFloat (s : List Char) : Option PFloat :=
  match s with
  | '+' :: t => pyFloatPos t
  | '-' :: t => (pyFloatPos t).map PFloat.negv
  | _ => pyFloatPos s

/-- The script's `to_float`: `float(x)` guarded by `except` (conversion
failure gives `None`) and by `math.isnan` (a NaN value gives `None`). -/
def to_float (s : List Char) : Option PFloat :=
  match pyFloat s with
  | some PFloat.nan => none
  | some v => some v
  | none => none

/-- One catalog record: the three raw metrics of a (protocol, node
count) pair. -/
structure Sample where
  delivery : PFloat
  overhead : PFloat
  latency : PFloat
  deriving DecidableEq, Inhabited

/-- Node count → sample mapping of one protocol, in insertion order as a
Python dict. -/
abbrev Series := List (ℕ × Sample)

/-- The module-level `protocols` dict: protocol name → series, in
insertion order. -/
abbrev Catalog := List (List Char × Series)

/-- Sample stored under `protocols[p][n]`, if any. -/
def lookupSample (cat : Catalog) (p : List Char) (n : ℕ) : Option Sample :=
  (cat.lookup p).bind (fun s => s.lookup n)

/-- The `if protocol_name not in protocols: protocols[protocol_name] = {}`
step. -/
def ensureProto (cat : Catalog) (p : List Char) : Catalog :=
  if (cat.lookup p).isSome then cat else cat ++ [(p, [])]

/-- Assignment `series[n] = smp` on a Python dict: update in place if the
key exists, else append. -/
def upsertSeries (s : Series) (n : ℕ) (smp : Sample) : Series :=
  if (s.lookup n).isSome then s.map (fun e => if e.1 = n then (n, smp) else e)
  else s ++ [(n, smp)]

/-- Assignment `protocols[p][n] = smp` (the key `p` is present by the
time the script performs it). -/
def updateCatalog (cat : Catalog) (p : List Char) (n : ℕ) (smp : Sample) : Catalog :=
  cat.map (fun e => if e.1 = p then (e.1, upsertSeries e.2 n smp) else e)

/-- Diagnostic prefix printed for a filename with fewer than three
underscore-separated parts. -/
def badNameMsg : List Char := "Skipping bad filename: ".toList

/-- Diagnostic prefix printed for a non-numeric node-count part. -/
def badNodeMsg : List Char := "Skipping invalid file (node count not numeric): ".toList

/-- Diagnostic prefix printed when a regex field is missing. -/
def missingMsg : List Char := "Skipping file (missing fields): ".toList

/-- Diagnostic prefix printed when `to_float` rejects a captured value. -/
def invalidMsg : List Char := "Skipping file (invalid numeric data): ".toList

/-- The filename suffix filter of the parse loop. -/
def reportSuffix : List Char := "MessageStatsReport.txt".toList

/-- Python `str.isdigit` on ASCII text: nonempty and all decimal digits. -/
def pyIsDigit (s : List Char) : Bool := !s.isEmpty && s.all isDigitC

/-- A directory entry: file name and file content. -/
structure ReportFile where
  name : List Char
  content : List Char

/-- One iteration of the STEP 1 parse loop on the file `f`: returns the
updated catalog and the diagnostic lines printed during the iteration. -/
def processFile (cat : Catalog) (f : ReportFile) : Catalog × List (List Char) :=
  if reportSuffix.isSuffixOf f.name = false then (cat, [])
  else if (f.name.splitOn '_').length < 3 then (cat, [badNameMsg ++ f.name])
  else if pyIsDigit ((f.name.splitOn '_').getD 1 []) = false then (cat, [badNodeMsg ++ f.name])
  else
    let protoName := (f.name.splitOn '_').getD 0 []
    let node := digitsToNat ((f.name.splitOn '_').getD 1 [])
    let cat1 := ensureProto cat protoName
    match extractStats f.content with
    | none => (cat1, [missingMsg ++ f.name])
    | some (dc, oc, lc) =>
      match to_float dc, to_float oc, to_float lc with
      | some dv, some ov, some lv =>
        (updateCatalog cat1 protoName node ⟨dv, ov, lv⟩, [])
      | _, _, _ => (cat1, [invalidMsg ++ f.name])

/-- The whole STEP 1 parse loop over the directory listing. -/
def runExtract : Catalog → List ReportFile → Catalog × List (List Char)
  | cat, [] => (cat, [])
  | cat, f :: fs =>
    let r1 := processFile cat f
    let r2 := runExtract r1.1 fs
    (r2.1, r1.2 ++ r2.2)

/-- Python `str.upper` on ASCII text. -/
def upperL (s : List Char) : List Char := s.map Char.toUpper

/-- Python `str.lower` on ASCII text. -/
def lowerL (s : List Char) : List Char := s.map Char.toLower

/-- Python substring containment `pat in s`. -/
def containsSub (pat : List Char) : List Char → Bool
  | [] => pat.isEmpty
  | c :: t => pat.isPrefixOf (c :: t) || containsSub pat t

/-- The variant marker `"EMRT"`. -/
def emrtMarker : List Char := "EMRT".toList

/-- The STEP 2 test `"EMRT" in name.upper()`. -/
def isVariantName (name : List Char) : Bool :=
  containsSub emrtMarker (upperL name)

/-- Lexicographic string comparison by code point, as Python string
comparison. -/
def strLe : List Char → List Char → Bool
  | [], _ => true
  | _ :: _, [] => false
  | a :: as, b :: bs => if a = b then strLe as bs else decide (a < b)

instance strLeDecRel : DecidableRel (fun a b : List Char => strLe a b = true) :=
  fun a b => instDecidableEqBool (strLe a b) true

/-- Python `list.sort()` on strings: sort ascending by `strLe`. -/
def sortStr (l : List (List Char)) : List (List Char) :=
  List.insertionSort (fun a b => strLe a b = true) l

/-- Python `list.sort()` on node counts. -/
def sortNat (l : List ℕ) : List ℕ :=
  List.insertionSort (fun a b : ℕ => a ≤ b) l

/-- Iteration order of `protocols.keys()`. -/
def catalogKeys (cat : Catalog) : List (List Char) := cat.map Prod.fst

/-- The sorted `base_protocols` list of STEP 2. -/
def base_protocols (cat : Catalog) : List (List Char) :=
  sortStr ((catalogKeys cat).filter (fun n => !isVariantName n))

/-- The sorted `emrt_protocols` list of STEP 2. -/
def emrt_protocols (cat : Catalog) : List (List Char) :=
  sortStr ((catalogKeys cat).filter (fun n => isVariantName n))

/-- The metric keys `plot_metric` is invoked with. -/
inductive RawMetric where
  | delivery
  | overhead
  | latency
  deriving DecidableEq

/-- The dict access `data[n][metric]`. -/
def Sample.metric : Sample → RawMetric → PFloat
  | s, RawMetric.delivery => s.delivery
  | s, RawMetric.overhead => s.overhead
  | s, RawMetric.latency => s.latency

/-- The series `protocols.get(proto, {})`. -/
def seriesOf (cat : Catalog) (p : List Char) : Series := (cat.lookup p).getD []

/-- The sorted node-count keys `sorted(data.keys())`. -/
def nodesSorted (cat : Catalog) (p : List Char) : List ℕ :=
  sortNat ((seriesOf cat p).map Prod.fst)

/-- Is the series of `p` empty (the `len(nodes_sorted) == 0` test)? -/
def seriesEmptyB (cat : Catalog) (p : List Char) : Bool :=
  (nodesSorted cat p).isEmpty

/-- The value list `[data[n][metric] for n in nodes_sorted]`, paired with
the node counts. -/
def pointsFor (cat : Catalog) (p : List Char) (m : RawMetric) : List (ℕ × PFloat) :=
  (nodesSorted cat p).map (fun n => (n, (((seriesOf cat p).lookup n).getD default).metric m))

/-- One drawn chart line: protocol label, points, line style, and color.
A color is the index assigned by the matplotlib color cycle to a base
line; `none` is an unset color (`color=None`). -/
structure Line where
  proto : List Char
  pts : List (ℕ × PFloat)
  dotted : Bool
  color : Option ℕ
  deriving DecidableEq

/-- Diagnostic prefix printed by `plot_metric` for a base protocol with
no data. -/
def baseSkipMsg : List Char := "Skipping base proto (no data): ".toList

/-- Diagnostic prefix printed by `plot_metric` for an EMRT protocol with
no data. -/
def emrtSkipMsg : List Char := "Skipping emrt proto (no data): ".toList

/-- The base-protocol loop of `plot_metric`: drawn lines, diagnostics,
and the `color_map` it builds (`idx` is the next free color of the color
cycle). -/
def drawBases (cat : Catalog) (m : RawMetric) :
    List (List Char) → ℕ → List Line × List (List Char) × List (List Char × ℕ)
  | [], _ => ([], [], [])
  | p :: rest, idx =>
    if (nodesSorted cat p).isEmpty then
      let r := drawBases cat m rest idx
      (r.1, (baseSkipMsg ++ p) :: r.2.1, r.2.2)
    else
      let r := drawBases cat m rest (idx + 1)
      (⟨p, pointsFor cat p m, false, some idx⟩ :: r.1, r.2.1, (p, idx) :: r.2.2)

/-- Python `proto.lower().replace("emrt", "")` applied to an already
lowercased string: remove the occurrences of `"emrt"` left to right. -/
def removeEmrt : List Char → List Char
  | 'e' :: 'm' :: 'r' :: 't' :: rest => removeEmrt rest
  | c :: rest => c :: removeEmrt rest
  | [] => []

/-- The variant-to-base matching loop: first base (in `bases` order)
whose lowercased name is contained in the variant's lowercased name with
the marker removed. -/
def matchBase (bases : List (List Char)) (proto : List Char) : Option (List Char) :=
  bases.find? (fun b => containsSub (lowerL b) (removeEmrt (lowerL proto)))

/-- The line drawn by the EMRT loop of `plot_metric` for `p`, if its
series is nonempty: dotted, colored by `color_map.get(match, None)`. -/
def variantLine (cat : Catalog) (m : RawMetric) (cmap : List (List Char × ℕ))
    (bases : List (List Char)) (p : List Char) : Option Line :=
  if (nodesSorted cat p).isEmpty then none
  else some ⟨p, pointsFor cat p m, true, (matchBase bases p).bind (fun b => cmap.lookup b)⟩

/-- The EMRT-protocol loop of `plot_metric`: drawn lines and
diagnostics. -/
def drawVariants (cat : Catalog) (m : RawMetric) (cmap : List (List Char × ℕ))
    (bases : List (List Char)) : List (List Char) → List Line × List (List Char)
  | [] => ([], [])
  | p :: rest =>
    let r := drawVariants cat m cmap bases rest
    match variantLine cat m cmap bases p with
    | none => (r.1, (emrtSkipMsg ++ p) :: r.2)
    | some L => (L :: r.1, r.2)

/-- The whole `plot_metric` call: all drawn lines (bases first, then
variants) and all diagnostics printed. -/
def plot_metric (cat : Catalog) (m : RawMetric) : List Line × List (List Char) :=
  let b := drawBases cat m (base_protocols cat) 0
  let v := drawVariants cat m b.2.2 (base_protocols cat) (emrt_protocols cat)
  (b.1 ++ v.1, b.2.1 ++ v.2)

/-- The metric keys `plot_derived` is invoked with. -/
inductive DMetric where
  | d_by_l
  | d_by_o
  | d_by_l_o
  deriving DecidableEq

/-- Python `1 / x` on a float: `ZeroDivisionError` (`none`) on a zero
value, `0.0` on an infinity, NaN on NaN. -/
def pyInv : PFloat → Option PFloat
  | PFloat.fin q => if q = 0 then none else some (PFloat.fin q⁻¹)
  | PFloat.inf => some (PFloat.fin 0)
  | PFloat.ninf => some (PFloat.fin 0)
  | PFloat.nan => some PFloat.nan

/-- Python float multiplication on the value model (never raises; an
infinity times zero is NaN per IEEE 754). -/
def pyMul : PFloat → PFloat → PFloat
  | PFloat.nan, _ => PFloat.nan
  | _, PFloat.nan => PFloat.nan
  | PFloat.fin a, PFloat.fin b => PFloat.fin (a * b)
  | PFloat.fin a, PFloat.inf =>
    if 0 < a then PFloat.inf else if a < 0 then PFloat.ninf else PFloat.nan
  | PFloat.inf, PFloat.fin a =>
    if 0 < a then PFloat.inf else if a < 0 then PFloat.ninf else PFloat.nan
  | PFloat.fin a, PFloat.ninf =>
    if 0 < a then PFloat.ninf else if a < 0 then PFloat.inf else PFloat.nan
  | PFloat.ninf, PFloat.fin a =>
    if 0 < a then PFloat.ninf else if a < 0 then PFloat.inf else PFloat.nan
  | PFloat.inf, PFloat.inf => PFloat.inf
  | PFloat.inf, PFloat.ninf => PFloat.ninf
  | PFloat.ninf, PFloat.inf => PFloat.ninf
  | PFloat.ninf, PFloat.ninf => PFloat.inf

/-- The per-sample derived value computed by `plot_derived`:
`d * (1/l)`, `d * (1/o)` or `d * (1/l) * (1/o)`, with the division
evaluated first (and able to raise). -/
def derivedVal (dm : DMetric) (s : Sample) : Option PFloat :=
  match dm with
  | DMetric.d_by_l => (pyInv s.latency).map (fun il => pyMul s.delivery il)
  | DMetric.d_by_o => (pyInv s.overhead).map (fun iv => pyMul s.delivery iv)
  | DMetric.d_by_l_o =>
    (pyInv s.latency).bind (fun il =>
      (pyInv s.overhead).map (fun iv => pyMul (pyMul s.delivery il) iv))

/-- The derived value list of `plot_derived` for one protocol, paired
with the node counts; `none` models a raised `ZeroDivisionError`. -/
def derivedPts (cat : Catalog) (dm : DMetric) (p : List Char) : Option (List (ℕ × PFloat)) :=
  (nodesSorted cat p).mapM (fun n =>
    (derivedVal dm (((seriesOf cat p).lookup n).getD default)).map (fun v => (n, v)))

/-- The base-protocol loop of `plot_derived`: note that the empty-series
case is skipped silently (no `print` in the source). A `none` result
models an uncaught `ZeroDivisionError` aborting the script. -/
def drawBasesD (cat : Catalog) (dm : DMetric) :
    List (List Char) → ℕ → Option (List Line × List (List Char × ℕ))
  | [], _ => some ([], [])
  | p :: rest, idx =>
    if (nodesSorted cat p).isEmpty then drawBasesD cat dm rest idx
    else
      match derivedPts cat dm p with
      | none => none
      | some pts =>
        match drawBasesD cat dm rest (idx + 1) with
        | none => none
        | some r => some (⟨p, pts, false, some idx⟩ :: r.1, (p, idx) :: r.2)

/-- The EMRT-protocol loop of `plot_derived`; again the empty-series
skip is silent. -/
def drawVariantsD (cat : Catalog) (dm : DMetric) (cmap : List (List Char × ℕ))
    (bases : List (List Char)) : List (List Char) → Option (List Line)
  | [] => some []
  | p :: rest =>
    if (nodesSorted cat p).isEmpty then drawVariantsD cat dm cmap bases rest
    else
      match derivedPts cat dm p with
      | none => none
      | some pts =>
        match drawVariantsD cat dm cmap bases rest with
        | none => none
        | some ls =>
          some (⟨p, pts, true, (matchBase bases p).bind (fun b => cmap.lookup b)⟩ :: ls)

/-- The whole `plot_derived` call: drawn lines and printed diagnostics
(there are none in the source), or `none` when a division by zero
raises. -/
def plot_derived (cat : Catalog) (dm : DMetric) : Option (List Line × List (List Char)) :=
  match drawBasesD cat dm (base_protocols cat) 0 with
  | none => none
  | some b =>
    match drawVariantsD cat dm b.2 (base_protocols cat) (emrt_protocols cat) with
    | none => none
    | some v => some (b.1 ++ v, [])

/-- Optional sign of a numeric literal. -/
inductive IsSignOpt : List Char → Prop
  | empty : IsSignOpt []
  | plus : IsSignOpt ['+']
  | minus : IsSignOpt ['-']

/-- Mantissa of a numeric literal: digits-dot-digits (integer part
possibly empty) or a plain digit run. -/
inductive IsMant : List Char → Prop
  | dotted (ds ds2 : List Char) : (∀ c ∈ ds, isDigitC c = true) → ds2 ≠ [] →
      (∀ c ∈ ds2, isDigitC c = true) → IsMant (ds ++ '.' :: ds2)
  | plain (ds : List Char) : ds ≠ [] → (∀ c ∈ ds, isDigitC c = true) → IsMant ds

/-- Optional exponent of a numeric literal. -/
inductive IsExpOpt : List Char → Prop
  | empty : IsExpOpt []
  | mk (c : Char) (sgn ds : List Char) : (c = 'e' ∨ c = 'E') → IsSignOpt sgn →
      ds ≠ [] → (∀ x ∈ ds, isDigitC x = true) → IsExpOpt (c :: (sgn ++ ds))

/-- A numeric literal of the grammar `sign? mantissa exponent?` — the
numeric alternative of `float_pattern`. -/
inductive IsNumLit : List Char → Prop
  | mk (sgn m e : List Char) : IsSignOpt sgn → IsMant m → IsExpOpt e →
      IsNumLit (sgn ++ (m ++ e))

/-- The text after a field value must end or continue with whitespace,
so that the value is the full maximal literal at its position. -/
def wsBarrier : List Char → Prop
  | [] => True
  | c :: _ => isSpaceC c = true

/-- The content contains the labeled field `label : lit` (colon
required, any whitespace around it, any letter case in the label), with
no earlier case-insensitive occurrence of the label and a whitespace
barrier after the value. -/
def HasField (label content lit : List Char) : Prop :=
  ∃ pre labelC ws1 ws2 post,
    content = pre ++ (labelC ++ (ws1 ++ ':' :: (ws2 ++ (lit ++ post))))
    ∧ ciEqL label labelC = true
    ∧ (∀ c ∈ ws1, isSpaceC c = true)
    ∧ (∀ c ∈ ws2, isSpaceC c = true)
    ∧ wsBarrier post
    ∧ (∀ q < pre.length, ciOccursAt label content q = false)

/-- Case-insensitive substring containment, the spec-side reading of
"contains the substring EMRT case-insensitively". -/
def ciContains (pat : List Char) : List Char → Bool
  | [] => pat.isEmpty
  | c :: t => (ciStrip pat (c :: t)).isSome || ciContains pat t

/-- Does the parse loop accept the file (create a sample for it)?
Mirrors the guard chain of `processFile`. -/
def fileAccepted (f : ReportFile) : Bool :=
  reportSuffix.isSuffixOf f.name
    && decide (3 ≤ (f.name.splitOn '_').length)
    && pyIsDigit ((f.name.splitOn '_').getD 1 [])
    && (match extractStats f.content with
        | none => false
        | some (dc, oc, lc) =>
          (to_float dc).isSome && (to_float oc).isSome && (to_float lc).isSome)

/-- Concrete well-formed report content used by witnesses: all three
fields present, scrambled order, mixed case, tabs and spaces around the
colons. -/
def demoContent : List Char :=
  ("Overhead_Ratio: 2.5\nlatency_avg :\t1.2e2\nDELIVERY_PROB : .75\n").toList

/-- Concrete report content whose delivery value is the literal `NaN`. -/
def demoNanContent : List Char :=
  ("delivery_prob : NaN\noverhead_ratio : 2.5\nlatency_avg : 120\n").toList

/-- Concrete report file carrying `demoNanContent`. -/
def demoNanFile : ReportFile :=
  ⟨("A_50_run_MessageStatsReport.txt").toList, demoNanContent⟩

/-- Concrete file whose name lacks the report suffix. -/
def demoPlainFile : ReportFile := ⟨("notes.txt").toList, []⟩

/-- Concrete file with the report suffix but a non-numeric node count. -/
def demoBadNodeFile : ReportFile :=
  ⟨("A_x_run_MessageStatsReport.txt").toList, demoContent⟩

/-- Concrete catalog with one protocol whose series is empty. -/
def demoEmptyCat : Catalog := [(("Prophet").toList, [])]

/-- Concrete catalog with a zero overhead value at one sample. -/
def demoZeroOverheadCat : Catalog :=
  [(("A").toList, [(50, ⟨PFloat.fin (1/2), PFloat.fin 0, PFloat.fin 100⟩)])]

/-- Concrete catalog with a zero latency value at one sample. -/
def demoZeroLatencyCat : Catalog :=
  [(("A").toList, [(50, ⟨PFloat.fin (1/2), PFloat.fin 2, PFloat.fin 0⟩)])]

/-- Concrete catalog with a base protocol and a matching variant. -/
def demoPairCat : Catalog :=
  [(("A").toList, [(50, ⟨PFloat.fin (1/2), PFloat.fin 1, PFloat.fin 100⟩)]),
   (("A-EMRT").toList, [(50, ⟨PFloat.fin (3/5), PFloat.fin 2, PFloat.fin 200⟩)])]

/-- Concrete catalog whose keys are Zeta, Alpha, Beta-EMRT in a
scrambled insertion order. -/
def demoOrderCat : Catalog :=
  [(("Beta-EMRT").toList, []), (("Zeta").toList, []), (("Alpha").toList, [])]

theorem takeWhile_append_stop {p : Char → Bool} {xs : List Char} (h : ∀ c ∈ xs, p c = true)
    {y : Char} (hy : p y = false) (ys : List Char) :
    (xs ++ y :: ys).takeWhile p = xs := by
  induction xs with
  | nil => simp [List.takeWhile_cons, hy]
  | cons a t ih =>
    have ha : p a = true := h a (by simp)
    have ht : ∀ c ∈ t, p c = true := fun c hc => h c (by simp [hc])
    simp [ha, ih ht]

theorem dropWhile_append_stop {p : Char → Bool} {xs : List Char} (h : ∀ c ∈ xs, p c = true)
    {y : Char} (hy : p y = false) (ys : List Char) :
    (xs ++ y :: ys).dropWhile p = y :: ys := by
  induction xs with
  | nil => simp [List.dropWhile_cons, hy]
  | cons a t ih =>
    simp only [List.cons_append, List.dropWhile_cons, h a (by simp), if_pos]
    exact ih (fun c hc => h c (by simp [hc]))

theorem takeWhile_all {p : Char → Bool} {xs : List Char} (h : ∀ c ∈ xs, p c = true) :
    xs.takeWhile p = xs := by
  induction xs with
  | nil => rfl
  | cons a t ih =>
    have ha : p a = true := h a (by simp)
    have ht : ∀ c ∈ t, p c = true := fun c hc => h c (by simp [hc])
    simp [ha, ih ht]

theorem dropWhile_all {p : Char → Bool} {xs : List Char} (h : ∀ c ∈ xs, p c = true) :
    xs.dropWhile p = [] := by
  induction xs with
  | nil => rfl
  | cons a t ih =>
    simp only [List.dropWhile_cons, h a (by simp), if_pos]
    exact ih (fun c hc => h c (by simp [hc]))

theorem space_not_digit {c : Char} (h : isSpaceC c = true) : isDigitC c = false := by
  simp only [isSpaceC, Bool.or_eq_true, beq_iff_eq] at h
  rcases h with ((((h | h) | h) | h) | h) | h <;> subst h <;> decide

theorem space_ne_dot {c : Char} (h : isSpaceC c = true) : c ≠ '.' := by
  simp only [isSpaceC, Bool.or_eq_true, beq_iff_eq] at h
  rcases h with ((((h | h) | h) | h) | h) | h <;> subst h <;> decide

theorem space_not_e {c : Char} (h : isSpaceC c = true) : (c == 'e' || c == 'E') = false := by
  simp only [isSpaceC, Bool.or_eq_true, beq_iff_eq] at h
  rcases h with ((((h | h) | h) | h) | h) | h <;> subst h <;> decide

theorem digit_not_sign {c : Char} (h : isDigitC c = true) : (c == '+' || c == '-') = false := by
  simp only [Bool.or_eq_false_iff, beq_eq_false_iff_ne]
  refine ⟨?_, ?_⟩ <;> rintro rfl <;> exact absurd h (by decide)

theorem digit_not_dot {c : Char} (h : isDigitC c = true) : c ≠ '.' := by
  intro he
  subst he
  exact absurd h (by decide)

theorem digit_not_e {c : Char} (h : isDigitC c = true) : (c == 'e' || c == 'E') = false := by
  simp only [Bool.or_eq_false_iff, beq_eq_false_iff_ne]
  refine ⟨?_, ?_⟩ <;> rintro rfl <;> exact absurd h (by decide)

theorem digit_not_space {c : Char} (h : isDigitC c = true) : isSpaceC c = false := by
  cases hs : isSpaceC c with
  | false => rfl
  | true => rw [space_not_digit hs] at h; exact absurd h (by decide)

theorem isMant_cons {m : List Char} (h : IsMant m) :
    ∃ c t, m = c :: t ∧ (c == '+' || c == '-') = false ∧ isSpaceC c = false := by
  rcases h with ⟨ds, ds2, hds, hne, hds2⟩ | ⟨ds, hne, hds⟩
  · cases ds with
    | nil => exact ⟨'.', ds2, rfl, by decide, by decide⟩
    | cons d dt =>
      have hd : isDigitC d = true := hds d (by simp)
      exact ⟨d, dt ++ '.' :: ds2, by simp, digit_not_sign hd, digit_not_space hd⟩
  · cases m with
    | nil => exact absurd rfl hne
    | cons d dt =>
      have hd : isDigitC d = true := hds d (by simp)
      exact ⟨d, dt, rfl, digit_not_sign hd, digit_not_space hd⟩

theorem matchMantissa_eq {m rest : List Char} (hm : IsMant m)
    (hr : rest = [] ∨ ∃ c t, rest = c :: t ∧ isDigitC c = false ∧ c ≠ '.') :
    matchMantissa (m ++ rest) = some (m, rest) := by
  rcases hm with ⟨ds, ds2, hds, hne, hds2⟩ | ⟨ds, hne, hds⟩
  · have hass : (ds ++ '.' :: ds2) ++ rest = ds ++ '.' :: (ds2 ++ rest) := by simp
    have h1 : (ds ++ '.' :: (ds2 ++ rest)).takeWhile isDigitC = ds :=
      takeWhile_append_stop hds (by decide) _
    have h2 : (ds ++ '.' :: (ds2 ++ rest)).dropWhile isDigitC = '.' :: (ds2 ++ rest) :=
      dropWhile_append_stop hds (by decide) _
    have h3 : (ds2 ++ rest).takeWhile isDigitC = ds2 := by
      rcases hr with rfl | ⟨c, t, rfl, hc, -⟩
      · simpa using takeWhile_all hds2
      · exact takeWhile_append_stop hds2 hc _
    have h4 : (ds2 ++ rest).dropWhile isDigitC = rest := by
      rcases hr with rfl | ⟨c, t, rfl, hc, -⟩
      · simpa using dropWhile_all hds2
      · exact dropWhile_append_stop hds2 hc _
    have h5 : ds2.isEmpty = false := by cases ds2 with
      | nil => exact absurd rfl hne
      | cons x xs => rfl
    rw [hass]
    simp only [matchMantissa, h1, h2, h3, h4, h5]
    simp
  · have h5 : m.isEmpty = false := by
      cases m with
      | nil => exact absurd rfl hne
      | cons x xs => rfl
    rcases hr with rfl | ⟨c, t, rfl, hc, hdot⟩
    · have h1 : m.takeWhile isDigitC = m := takeWhile_all hds
      have h2 : m.dropWhile isDigitC = [] := dropWhile_all hds
      rw [List.append_nil]
      simp only [matchMantissa, h1, h2, h5]
      simp
    · have h1 : (m ++ c :: t).takeWhile isDigitC = m := takeWhile_append_stop hds hc _
      have h2 : (m ++ c :: t).dropWhile isDigitC = c :: t := dropWhile_append_stop hds hc _
      simp only [matchMantissa, h1, h2, h5]
      split
      · next heq => rw [List.cons.injEq] at heq; exact absurd heq.1 hdot
      · simp [h5]

theorem matchExp_eq {e rest : List Char} (he : IsExpOpt e) (hr : wsBarrier rest) :
    matchExp (e ++ rest) = (e, rest) := by
  rcases he with _ | ⟨c, sgn, ds, hc, hsgn, hne, hds⟩
  · cases rest with
    | nil => rfl
    | cons c t =>
      have hcf : (c == 'e' || c == 'E') = false := space_not_e hr
      simp [matchExp, hcf]
  · obtain ⟨d0, ds', rfl⟩ : ∃ d0 ds', ds = d0 :: ds' := by
      cases ds with
      | nil => exact absurd rfl hne
      | cons d0 ds' => exact ⟨d0, ds', rfl⟩
    have hcT : (c == 'e' || c == 'E') = true := by rcases hc with rfl | rfl <;> simp
    have htake : ((d0 :: ds') ++ rest).takeWhile isDigitC = d0 :: ds' := by
      rcases rest with _ | ⟨r0, rt⟩
      · simpa using takeWhile_all hds
      · exact takeWhile_append_stop hds (space_not_digit hr) _
    have hdrop : ((d0 :: ds') ++ rest).dropWhile isDigitC = rest := by
      rcases rest with _ | ⟨r0, rt⟩
      · simpa using dropWhile_all hds
      · exact dropWhile_append_stop hds (space_not_digit hr) _
    have hd0 : isDigitC d0 = true := hds d0 (by simp)
    have htake2 : List.takeWhile isDigitC (ds' ++ rest) = ds' := by
      have h := htake
      rw [List.cons_append, List.takeWhile_cons, hd0] at h
      simpa using h
    have hdrop2 : List.dropWhile isDigitC (ds' ++ rest) = rest := by
      have h := hdrop
      rw [List.cons_append, List.dropWhile_cons, hd0] at h
      simpa using h
    rcases hsgn with _ | _ | _
    · have hd0s : (d0 == '+' || d0 == '-') = false := digit_not_sign hd0
      simp only [List.nil_append, List.cons_append, matchExp, hcT, if_true, hd0s, htake, hdrop]
      simp [htake2, hdrop2, hd0]
    · simp only [List.cons_append, List.nil_append, matchExp, hcT, htake, hdrop]
      simp [htake2, hdrop2, hd0]
    · simp only [List.cons_append, List.nil_append, matchExp, hcT, htake, hdrop]
      simp [htake2, hdrop2, hd0]

theorem expOpt_stop {e rest : List Char} (he : IsExpOpt e) (hr : wsBarrier rest) :
    e ++ rest = [] ∨ ∃ c t, e ++ rest = c :: t ∧ isDigitC c = false ∧ c ≠ '.' := by
  rcases he with _ | ⟨c, sgn, ds, hc, hsgn, hne, hds⟩
  · cases rest with
    | nil => exact Or.inl rfl
    | cons c t => exact Or.inr ⟨c, t, rfl, space_not_digit hr, space_ne_dot hr⟩
  · refine Or.inr ⟨c, sgn ++ ds ++ rest, by simp, ?_, ?_⟩ <;> rcases hc with rfl | rfl <;> decide

theorem matchNumeric_eq {lit rest : List Char} (h : IsNumLit lit) (hr : wsBarrier rest) :
    matchNumeric (lit ++ rest) = some (lit, rest) := by
  rcases h with ⟨sgn, m, e, hsgn, hm, he⟩
  have hmant : matchMantissa (m ++ (e ++ rest)) = some (m, e ++ rest) :=
    matchMantissa_eq hm (expOpt_stop he hr)
  have hexp : matchExp (e ++ rest) = (e, rest) := matchExp_eq he hr
  obtain ⟨c0, t0, hm0, hsign0, -⟩ := isMant_cons hm
  rcases hsgn with _ | _ | _
  · have hshape : ([] ++ (m ++ e)) ++ rest = c0 :: (t0 ++ (e ++ rest)) := by
      simp [hm0]
    rw [hshape]
    simp only [matchNumeric, hsign0]
    rw [← List.cons_append, ← hm0, hmant]
    simp [hexp, hm0]
  · have hshape : (['+'] ++ (m ++ e)) ++ rest = '+' :: (m ++ (e ++ rest)) := by simp
    rw [hshape]
    simp only [matchNumeric]
    rw [hmant]
    simp [hexp]
  · have hshape : (['-'] ++ (m ++ e)) ++ rest = '-' :: (m ++ (e ++ rest)) := by simp
    rw [hshape]
    simp only [matchNumeric]
    rw [hmant]
    simp [hexp]

theorem matchFloat_eq {lit rest : List Char} (h : IsNumLit lit) (hr : wsBarrier rest) :
    matchFloat (lit ++ rest) = some (lit, rest) := by
  simp [matchFloat, matchNumeric_eq h hr]

theorem ciStrip_of_ciEqL {pat labc : List Char} (h : ciEqL pat labc = true) (r : List Char) :
    ciStrip pat (labc ++ r) = some (labc, r) := by
  induction pat generalizing labc with
  | nil =>
    cases labc with
    | nil => rfl
    | cons b bs => exact absurd h (by simp [ciEqL])
  | cons a as ih =>
    cases labc with
    | nil => exact absurd h (by simp [ciEqL])
    | cons b bs =>
      simp only [ciEqL, Bool.and_eq_true] at h
      simp [ciStrip, h.1, ih h.2]

theorem ciEqL_ne_nil {pat labc : List Char} (hne : pat ≠ []) (h : ciEqL pat labc = true) :
    labc ≠ [] := by
  cases pat with
  | nil => exact absurd rfl hne
  | cons a as =>
    cases labc with
    | nil => exact absurd h (by simp [ciEqL])
    | cons b bs => simp

theorem isNumLit_head {lit : List Char} (h : IsNumLit lit) :
    ∃ c t, lit = c :: t ∧ isSpaceC c = false := by
  rcases h with ⟨sgn, m, e, hsgn, hm, he⟩
  rcases hsgn with _ | _ | _
  · obtain ⟨c, t, hm0, -, hsp⟩ := isMant_cons hm
    exact ⟨c, t ++ e, by simp [hm0], hsp⟩
  · exact ⟨'+', m ++ e, by simp, by decide⟩
  · exact ⟨'-', m ++ e, by simp, by decide⟩

theorem matchAt_field {label labelC ws1 ws2 lit post : List Char}
    (hl : ciEqL label labelC = true) (h1 : ∀ c ∈ ws1, isSpaceC c = true)
    (h2 : ∀ c ∈ ws2, isSpaceC c = true) (hlit : IsNumLit lit) (hp : wsBarrier post) :
    matchAt label (labelC ++ (ws1 ++ ':' :: (ws2 ++ (lit ++ post)))) = some lit := by
  have hstrip := ciStrip_of_ciEqL hl (ws1 ++ ':' :: (ws2 ++ (lit ++ post)))
  have hd1 : (ws1 ++ ':' :: (ws2 ++ (lit ++ post))).dropWhile isSpaceC
      = ':' :: (ws2 ++ (lit ++ post)) :=
    dropWhile_append_stop h1 (by decide) _
  obtain ⟨c, t, hlit0, hcsp⟩ := isNumLit_head hlit
  have hd2 : (ws2 ++ (lit ++ post)).dropWhile isSpaceC = lit ++ post := by
    rw [hlit0, List.cons_append]
    exact dropWhile_append_stop h2 hcsp _
  simp only [matchAt, hstrip, hd1, hd2, matchFloat_eq hlit hp]
  rfl

theorem matchAt_none_of_no_occur {label s : List Char} (h : (ciStrip label s).isSome = false) :
    matchAt label s = none := by
  simp only [matchAt]
  cases hc : ciStrip label s with
  | none => rfl
  | some x => rw [hc] at h; simp at h

theorem searchField_append {label : List Char} (pre rest : List Char)
    (h : ∀ q < pre.length, ciOccursAt label (pre ++ rest) q = false) :
    searchField label (pre ++ rest) = searchField label rest := by
  induction pre with
  | nil => rfl
  | cons a t ih =>
    have h0 : ciOccursAt label (a :: (t ++ rest)) 0 = false := by
      simpa using h 0 (by simp)
    have hm : matchAt label (a :: (t ++ rest)) = none := by
      apply matchAt_none_of_no_occur
      simpa [ciOccursAt] using h0
    rw [List.cons_append]
    simp only [searchField, hm]
    apply ih
    intro q hq
    have hh := h (q + 1) (by simpa using Nat.succ_lt_succ hq)
    simpa [ciOccursAt, List.drop_succ_cons] using hh

theorem searchField_found {label s cap : List Char}
    (hne : s ≠ []) (h : matchAt label s = some cap) : searchField label s = some cap := by
  cases s with
  | nil => exact absurd rfl hne
  | cons a t => simp [searchField, h]

theorem searchField_hasField {label content lit : List Char} (hlab : label ≠ [])
    (hf : HasField label content lit) (hlit : IsNumLit lit) :
    searchField label content = some lit := by
  obtain ⟨pre, labelC, ws1, ws2, post, hc, hciq, h1, h2, hp, hocc⟩ := hf
  subst hc
  rw [searchField_append pre _ hocc]
  apply searchField_found
  · have := ciEqL_ne_nil hlab hciq
    cases labelC with
    | nil => exact absurd rfl this
    | cons x xs => simp
  · exact matchAt_field hciq h1 h2 hlit hp

/-- C1: for every report file content containing the three labeled
fields `delivery_prob`, `overhead_ratio`, `latency_avg` in well-formed
`label : value` shape (colon required, arbitrary whitespace around it,
arbitrary letter case in the label, fields anywhere and in any order,
each label occurring nowhere earlier), extraction yields exactly the
three numeric values written after those labels. -/
theorem c1_wellformed_extraction (content litd lito litl : List Char) (qd qo ql : ℚ)
    (hd : HasField delivery_label content litd) (hdn : IsNumLit litd)
    (ho : HasField overhead_label content lito) (hon : IsNumLit lito)
    (hl : HasField latency_label content litl) (hln : IsNumLit litl)
    (hqd : pyFloat litd = some (PFloat.fin qd))
    (hqo : pyFloat lito = some (PFloat.fin qo))
    (hql : pyFloat litl = some (PFloat.fin ql)) :
    extractStats content = some (litd, lito, litl)
    ∧ to_float litd = some (PFloat.fin qd)
    ∧ to_float lito = some (PFloat.fin qo)
    ∧ to_float litl = some (PFloat.fin ql) := by
  have hsd := searchField_hasField (by decide) hd hdn
  have hso := searchField_hasField (by decide) ho hon
  have hsl := searchField_hasField (by decide) hl hln
  refine ⟨by simp [extractStats, hsd, hso, hsl], ?_, ?_, ?_⟩
  · simp [to_float, hqd]
  · simp [to_float, hqo]
  · simp [to_float, hql]

theorem demo_q75 : ((digitsToNat [] : ℚ) + (digitsToNat ['7', '5'] : ℚ) / (10 : ℚ) ^ (2 : ℕ))
    * (10 : ℚ) ^ (0 : ℤ) = 3 / 4 := by
  norm_num [digitsToNat, show ('7').toNat = 55 from rfl, show ('5').toNat = 53 from rfl]

theorem demo_q25 : ((digitsToNat ['2'] : ℚ) + (digitsToNat ['5'] : ℚ) / (10 : ℚ) ^ (1 : ℕ))
    * (10 : ℚ) ^ (0 : ℤ) = 5 / 2 := by
  norm_num [digitsToNat, show ('2').toNat = 50 from rfl, show ('5').toNat = 53 from rfl]

theorem demo_q120 : ((digitsToNat ['1'] : ℚ) + (digitsToNat ['2'] : ℚ) / (10 : ℚ) ^ (1 : ℕ))
    * (10 : ℚ) ^ (Int.ofNat (digitsToNat ['2'])) = 120 := by
  norm_num [digitsToNat, show ('1').toNat = 49 from rfl, show ('2').toNat = 50 from rfl]

theorem pyFloat_demo75 : pyFloat (".75".toList) = some (PFloat.fin (3 / 4)) := by
  rw [← demo_q75]; rfl

theorem pyFloat_demo25 : pyFloat ("2.5".toList) = some (PFloat.fin (5 / 2)) := by
  rw [← demo_q25]; rfl

theorem pyFloat_demo120 : pyFloat ("1.2e2".toList) = some (PFloat.fin 120) := by
  rw [← demo_q120]; rfl

/-- Witness for C1: the scrambled-order, mixed-case, tab-spaced content
`demoContent` yields exactly the three values written in it. -/
theorem c1_witness :
    extractStats demoContent = some (".75".toList, "2.5".toList, "1.2e2".toList)
    ∧ to_float (".75".toList) = some (PFloat.fin (3 / 4))
    ∧ to_float ("2.5".toList) = some (PFloat.fin (5 / 2))
    ∧ to_float ("1.2e2".toList) = some (PFloat.fin 120) :=
  c1_wellformed_extraction demoContent (".75".toList) ("2.5".toList) ("1.2e2".toList)
    (3 / 4) (5 / 2) 120
    ⟨("Overhead_Ratio: 2.5\nlatency_avg :\t1.2e2\n").toList, ("DELIVERY_PROB").toList,
      [' '], [' '], ['\n'], by decide, by decide, by decide, by decide, rfl, by decide⟩
    (IsNumLit.mk [] ('.' :: ['7', '5']) [] IsSignOpt.empty
      (IsMant.dotted [] ['7', '5'] (by decide) (by decide) (by decide)) IsExpOpt.empty)
    ⟨[], ("Overhead_Ratio").toList, [], [' '],
      ("\nlatency_avg :\t1.2e2\nDELIVERY_PROB : .75\n").toList,
      by decide, by decide, by decide, by decide, rfl, by decide⟩
    (IsNumLit.mk [] (['2'] ++ '.' :: ['5']) [] IsSignOpt.empty
      (IsMant.dotted ['2'] ['5'] (by decide) (by decide) (by decide)) IsExpOpt.empty)
    ⟨("Overhead_Ratio: 2.5\n").toList, ("latency_avg").toList, [' '], ['\t'],
      ("\nDELIVERY_PROB : .75\n").toList,
      by decide, by decide, by decide, by decide, rfl, by decide⟩
    (IsNumLit.mk [] (['1'] ++ '.' :: ['2']) ('e' :: ([] ++ ['2'])) IsSignOpt.empty
      (IsMant.dotted ['1'] ['2'] (by decide) (by decide) (by decide))
      (IsExpOpt.mk 'e' [] ['2'] (Or.inl rfl) IsSignOpt.empty (by decide) (by decide)))
    pyFloat_demo75 pyFloat_demo25 pyFloat_demo120

theorem processFile_nosuffix {cat : Catalog} {f : ReportFile}
    (h : reportSuffix.isSuffixOf f.name = false) : processFile cat f = (cat, []) := by
  simp [processFile, h]

theorem processFile_badname {cat : Catalog} {f : ReportFile}
    (hsuf : reportSuffix.isSuffixOf f.name = true)
    (hlen : (f.name.splitOn '_').length < 3) :
    processFile cat f = (cat, [badNameMsg ++ f.name]) := by
  simp [processFile, hsuf, hlen]

theorem processFile_badnode {cat : Catalog} {f : ReportFile}
    (hsuf : reportSuffix.isSuffixOf f.name = true)
    (hlen : 3 ≤ (f.name.splitOn '_').length)
    (hdig : pyIsDigit ((f.name.splitOn '_').getD 1 []) = false) :
    processFile cat f = (cat, [badNodeMsg ++ f.name]) := by
  simp only [processFile, hsuf]
  rw [if_neg (by simp), if_neg (by omega), if_pos hdig]

theorem processFile_missing {cat : Catalog} {f : ReportFile}
    (hsuf : reportSuffix.isSuffixOf f.name = true)
    (hlen : 3 ≤ (f.name.splitOn '_').length)
    (hdig : pyIsDigit ((f.name.splitOn '_').getD 1 []) = true)
    (hnone : extractStats f.content = none) :
    processFile cat f
      = (ensureProto cat ((f.name.splitOn '_').getD 0 []), [missingMsg ++ f.name]) := by
  simp only [processFile, hsuf]
  rw [if_neg (by simp), if_neg (by omega), if_neg (by rw [hdig]; simp)]
  rw [hnone]

theorem processFile_invalid {cat : Catalog} {f : ReportFile} {dc oc lc : List Char}
    (hsuf : reportSuffix.isSuffixOf f.name = true)
    (hlen : 3 ≤ (f.name.splitOn '_').length)
    (hdig : pyIsDigit ((f.name.splitOn '_').getD 1 []) = true)
    (hsome : extractStats f.content = some (dc, oc, lc))
    (hfl : to_float dc = none ∨ to_float oc = none ∨ to_float lc = none) :
    processFile cat f
      = (ensureProto cat ((f.name.splitOn '_').getD 0 []), [invalidMsg ++ f.name]) := by
  simp only [processFile, hsuf]
  rw [if_neg (by simp), if_neg (by omega), if_neg (by rw [hdig]; simp)]
  rw [hsome]
  rcases h1 : to_float dc with _ | dv <;> rcases h2 : to_float oc with _ | ov
      <;> rcases h3 : to_float lc with _ | lv <;> simp_all

theorem processFile_accept {cat : Catalog} {f : ReportFile} {dc oc lc : List Char}
    {dv ov lv : PFloat}
    (hsuf : reportSuffix.isSuffixOf f.name = true)
    (hlen : 3 ≤ (f.name.splitOn '_').length)
    (hdig : pyIsDigit ((f.name.splitOn '_').getD 1 []) = true)
    (hsome : extractStats f.content = some (dc, oc, lc))
    (h1 : to_float dc = some dv) (h2 : to_float oc = some ov) (h3 : to_float lc = some lv) :
    processFile cat f
      = (updateCatalog (ensureProto cat ((f.name.splitOn '_').getD 0 []))
          ((f.name.splitOn '_').getD 0 []) (digitsToNat ((f.name.splitOn '_').getD 1 []))
          ⟨dv, ov, lv⟩, []) := by
  simp only [processFile, hsuf]
  rw [if_neg (by simp), if_neg (by omega), if_neg (by rw [hdig]; simp)]
  rw [hsome]
  simp only [h1, h2, h3]

theorem lookup_append {β : Type} (l1 l2 : List (List Char × β)) (k : List Char) :
    List.lookup k (l1 ++ l2)
      = match List.lookup k l1 with
        | some v => some v
        | none => List.lookup k l2 := by
  induction l1 with
  | nil => rfl
  | cons a t ih =>
    obtain ⟨k1, v1⟩ := a
    cases hk : k == k1 with
    | true => simp [List.lookup, hk]
    | false => simp [List.lookup, hk, ih]

theorem lookupSample_ensure (cat : Catalog) (p0 p : List Char) (n : ℕ) :
    lookupSample (ensureProto cat p0) p n = lookupSample cat p n := by
  simp only [ensureProto]
  split
  · rfl
  · next hnone =>
    simp only [lookupSample, lookup_append]
    cases hc : List.lookup p cat with
    | some s => simp
    | none =>
      cases hp : p == p0 with
      | true =>
        have : p = p0 := by simpa using hp
        subst this
        simp [List.lookup, hp]
      | false => simp [List.lookup, hp]

/-- C2: for every accepted report file, a missing field or a field value
that `to_float` rejects (the literal NaN in any case, or an
unconvertible literal) leaves every `(protocol, nodecount)` sample of
the catalog unchanged — no record, not even a partial one, is created
for the file. -/
theorem c2_all_or_nothing (cat : Catalog) (f : ReportFile)
    (hsuf : reportSuffix.isSuffixOf f.name = true)
    (hlen : 3 ≤ (f.name.splitOn '_').length)
    (hdig : pyIsDigit ((f.name.splitOn '_').getD 1 []) = true)
    (hfail : extractStats f.content = none
      ∨ ∃ dc oc lc, extractStats f.content = some (dc, oc, lc)
          ∧ (to_float dc = none ∨ to_float oc = none ∨ to_float lc = none)) :
    ∀ p n, lookupSample (processFile cat f).1 p n = lookupSample cat p n := by
  intro p n
  rcases hfail with hnone | ⟨dc, oc, lc, hsome, hfl⟩
  · rw [processFile_missing hsuf hlen hdig hnone]
    exact lookupSample_ensure cat _ p n
  · rw [processFile_invalid hsuf hlen hdig hsome hfl]
    exact lookupSample_ensure cat _ p n

/-- Witness for C2: the concrete file whose `delivery_prob` value is the
literal `NaN` creates no `(A, 50)` record. -/
theorem c2_witness : lookupSample (processFile [] demoNanFile).1 ("A".toList) 50 = none :=
  (c2_all_or_nothing [] demoNanFile (by decide) (by decide) (by decide)
    (Or.inr ⟨("NaN").toList, ("2.5").toList, ("120").toList, by decide,
      Or.inl (by decide)⟩) (("A").toList) 50).trans rfl

/-- C10: a file with a recognized filename whose fields are missing or
invalid still inserts its protocol key with an empty series into the
catalog (the key insertion happens before field validation), while
storing no sample. -/
theorem c10_empty_series (cat : Catalog) (f : ReportFile)
    (hsuf : reportSuffix.isSuffixOf f.name = true)
    (hlen : 3 ≤ (f.name.splitOn '_').length)
    (hdig : pyIsDigit ((f.name.splitOn '_').getD 1 []) = true)
    (habs : cat.lookup ((f.name.splitOn '_').getD 0 []) = none)
    (hfail : extractStats f.content = none
      ∨ ∃ dc oc lc, extractStats f.content = some (dc, oc, lc)
          ∧ (to_float dc = none ∨ to_float oc = none ∨ to_float lc = none)) :
    (processFile cat f).1 = cat ++ [((f.name.splitOn '_').getD 0 [], [])]
    ∧ (processFile cat f).1.lookup ((f.name.splitOn '_').getD 0 []) = some []
    ∧ ∀ n, lookupSample (processFile cat f).1 ((f.name.splitOn '_').getD 0 []) n = none := by
  have hens : ensureProto cat ((f.name.splitOn '_').getD 0 [])
      = cat ++ [((f.name.splitOn '_').getD 0 [], [])] := by
    unfold ensureProto
    rw [habs]
    rfl
  have hfst : (processFile cat f).1 = cat ++ [((f.name.splitOn '_').getD 0 [], [])] := by
    rcases hfail with hnone | ⟨dc, oc, lc, hsome, hfl⟩
    · rw [processFile_missing hsuf hlen hdig hnone]
      exact hens
    · rw [processFile_invalid hsuf hlen hdig hsome hfl]
      exact hens
  have hlook : (processFile cat f).1.lookup ((f.name.splitOn '_').getD 0 []) = some [] := by
    rw [hfst, lookup_append, habs]
    simp [List.lookup]
  refine ⟨hfst, hlook, fun n => ?_⟩
  simp only [lookupSample]
  rw [hlook]
  rfl

/-- Witness for C10: the NaN-valued file leaves protocol `A` in the
catalog with an empty series. -/
theorem c10_witness :
    (processFile [] demoNanFile).1 = [] ++ [(("A").toList, [])]
    ∧ (processFile [] demoNanFile).1.lookup (("A").toList) = some []
    ∧ ∀ n, lookupSample (processFile [] demoNanFile).1 (("A").toList) n = none := by
  have h := c10_empty_series [] demoNanFile (by decide) (by decide) (by decide) (by decide)
    (Or.inr ⟨("NaN").toList, ("2.5").toList, ("120").toList, by decide, Or.inl (by decide)⟩)
  exact h

theorem runExtract_append (cat : Catalog) (xs ys : List ReportFile) :
    runExtract cat (xs ++ ys)
      = ((runExtract (runExtract cat xs).1 ys).1,
         (runExtract cat xs).2 ++ (runExtract (runExtract cat xs).1 ys).2) := by
  induction xs generalizing cat with
  | nil => simp [runExtract]
  | cons f fs ih =>
    simp only [List.cons_append, runExtract, List.append_eq]
    rw [ih]
    simp [List.append_assoc]

/-- C5: for a filename with the recognized suffix whose node-count part
is not a pure digit string, the file is skipped with the node-count
diagnostic, the catalog is untouched, and the surrounding run continues
exactly as if the file were absent (only the diagnostic is added) — the
check is never fatal. -/
theorem c5_nodecount_check (cat : Catalog) (f : ReportFile) (fs1 fs2 : List ReportFile)
    (hsuf : reportSuffix.isSuffixOf f.name = true)
    (hlen : 3 ≤ (f.name.splitOn '_').length)
    (hdig : pyIsDigit ((f.name.splitOn '_').getD 1 []) = false) :
    processFile cat f = (cat, [badNodeMsg ++ f.name])
    ∧ (runExtract cat (fs1 ++ f :: fs2)).1 = (runExtract cat (fs1 ++ fs2)).1
    ∧ (runExtract cat (fs1 ++ f :: fs2)).2
        = (runExtract cat fs1).2
          ++ (badNodeMsg ++ f.name) :: (runExtract (runExtract cat fs1).1 fs2).2 := by
  have hstep : processFile (runExtract cat fs1).1 f = ((runExtract cat fs1).1, [badNodeMsg ++ f.name]) :=
    processFile_badnode hsuf hlen hdig
  refine ⟨processFile_badnode hsuf hlen hdig, ?_, ?_⟩
  · rw [runExtract_append, runExtract_append]
    simp only [runExtract, hstep]
  · rw [runExtract_append]
    simp only [runExtract, hstep]
    simp

/-- Witness for C5: the concrete bad-node-count file is skipped with its
diagnostic and does not derail a one-file run. -/
theorem c5_witness :
    processFile [] demoBadNodeFile = ([], [badNodeMsg ++ demoBadNodeFile.name])
    ∧ (runExtract [] ([] ++ demoBadNodeFile :: [])).1 = (runExtract [] ([] ++ [])).1
    ∧ (runExtract [] ([] ++ demoBadNodeFile :: [])).2
        = (runExtract [] []).2
          ++ (badNodeMsg ++ demoBadNodeFile.name) :: (runExtract (runExtract [] []).1 []).2 :=
  c5_nodecount_check [] demoBadNodeFile [] [] (by decide) (by decide) (by decide)

/-- Counterexample for C3: the file `notes.txt` is skipped by the
extractor (no catalog entry is created for it, and `fileAccepted` is
false) yet not a single diagnostic line is printed, refuting "no file is
ever skipped silently". -/
theorem c3_counterexample :
    fileAccepted demoPlainFile = false ∧ processFile [] demoPlainFile = ([], []) := by
  constructor
  · decide
  · decide

/-- C3 (amended): among files bearing the recognized report suffix,
every skipped file produces exactly one diagnostic line naming the file
and the reason, and every accepted file produces none; files without the
suffix are filtered silently. -/
theorem c3_amended_diagnostics (cat : Catalog) (f : ReportFile)
    (hsuf : reportSuffix.isSuffixOf f.name = true) :
    (fileAccepted f = true → (processFile cat f).2 = [])
    ∧ (fileAccepted f = false →
        ∃ r, (r = badNameMsg ∨ r = badNodeMsg ∨ r = missingMsg ∨ r = invalidMsg)
          ∧ (processFile cat f).2 = [r ++ f.name]) := by
  constructor
  · intro hacc
    simp only [fileAccepted, Bool.and_eq_true, decide_eq_true_eq] at hacc
    obtain ⟨⟨⟨h1, h2⟩, h3⟩, h4⟩ := hacc
    cases hext : extractStats f.content with
    | none => rw [hext] at h4; exact absurd h4 (by simp)
    | some t =>
      obtain ⟨dc, oc, lc⟩ := t
      rw [hext] at h4
      simp only [Bool.and_eq_true, Option.isSome_iff_exists] at h4
      obtain ⟨⟨⟨dv, hdv⟩, ov, hov⟩, lv, hlv⟩ := h4
      rw [processFile_accept h1 h2 h3 hext hdv hov hlv]
  · intro hacc
    by_cases h2 : 3 ≤ (f.name.splitOn '_').length
    case neg =>
      exact ⟨badNameMsg, by simp, by rw [processFile_badname hsuf (by omega)]⟩
    case pos =>
      by_cases h3 : pyIsDigit ((f.name.splitOn '_').getD 1 []) = true
      case neg =>
        refine ⟨badNodeMsg, by simp, ?_⟩
        rw [processFile_badnode hsuf h2 (by simpa using h3)]
      case pos =>
        cases hext : extractStats f.content with
        | none =>
          exact ⟨missingMsg, by simp, by rw [processFile_missing hsuf h2 h3 hext]⟩
        | some t =>
          obtain ⟨dc, oc, lc⟩ := t
          have hfl : to_float dc = none ∨ to_float oc = none ∨ to_float lc = none := by
            by_contra hcon
            push_neg at hcon
            have hT : fileAccepted f = true := by
              unfold fileAccepted
              rw [hsuf, hext, h3]
              simp [h2, Option.isSome_iff_ne_none, hcon.1, hcon.2.1, hcon.2.2]
            rw [hT] at hacc
            exact absurd hacc (by simp)
          exact ⟨invalidMsg, by simp, by rw [processFile_invalid hsuf h2 h3 hext hfl]⟩

/-- Witness for C3 (amended): the bad-node-count file gets exactly one
diagnostic naming it. -/
theorem c3_witness :
    ∃ r, (r = badNameMsg ∨ r = badNodeMsg ∨ r = missingMsg ∨ r = invalidMsg)
      ∧ (processFile [] demoBadNodeFile).2 = [r ++ demoBadNodeFile.name] :=
  (c3_amended_diagnostics [] demoBadNodeFile (by decide)).2 (by decide)

/-- C8: on samples with finite values and nonzero denominators, the
derived metrics computed per-sample by `plot_derived` equal `d / l`,
`d / o` and `d / (l * o)` respectively. -/
theorem c8_derived_metrics (d o l : ℚ) (ho : o ≠ 0) (hl : l ≠ 0) :
    derivedVal DMetric.d_by_l ⟨PFloat.fin d, PFloat.fin o, PFloat.fin l⟩
      = some (PFloat.fin (d / l))
    ∧ derivedVal DMetric.d_by_o ⟨PFloat.fin d, PFloat.fin o, PFloat.fin l⟩
      = some (PFloat.fin (d / o))
    ∧ derivedVal DMetric.d_by_l_o ⟨PFloat.fin d, PFloat.fin o, PFloat.fin l⟩
      = some (PFloat.fin (d / (l * o))) := by
  refine ⟨?_, ?_, ?_⟩
  · simp [derivedVal, pyInv, pyMul, hl, div_eq_mul_inv]
  · simp [derivedVal, pyInv, pyMul, ho, div_eq_mul_inv]
  · simp [derivedVal, pyInv, pyMul, ho, hl, div_eq_mul_inv, mul_inv, mul_assoc]
    exact Or.inl (mul_comm _ _)

/-- Witness for C8: the base sample with delivery `0.5` and overhead
`1.0` has derived metric `d_by_o` equal to `0.5`. -/
theorem c8_witness :
    derivedVal DMetric.d_by_o ⟨PFloat.fin (1 / 2), PFloat.fin 1, PFloat.fin 100⟩
      = some (PFloat.fin (1 / 2)) := by
  have h := (c8_derived_metrics (1 / 2) 1 100 (by norm_num) (by norm_num)).2.1
  rw [h]
  norm_num

/-- C9: a catalog holding a sample whose overhead raw value is exactly
zero makes the `d_by_o` derived computation divide by zero and raise
(`none` models the propagated `ZeroDivisionError`), and likewise a zero
latency value for `d_by_l`; `plot_metric` on the same catalogs does not
raise. -/
theorem c9_div_zero :
    plot_derived demoZeroOverheadCat DMetric.d_by_o = none
    ∧ plot_derived demoZeroLatencyCat DMetric.d_by_l = none := by
  constructor
  · rfl
  · rfl

theorem drawBases_msgs (cat : Catalog) (m : RawMetric) (bs : List (List Char)) (idx : ℕ) :
    (drawBases cat m bs idx).2.1
      = (bs.filter (fun p => seriesEmptyB cat p)).map (fun p => baseSkipMsg ++ p) := by
  induction bs generalizing idx with
  | nil => rfl
  | cons p rest ih =>
    simp only [drawBases]
    cases hp : (nodesSorted cat p).isEmpty with
    | true => simp [hp, List.filter_cons, seriesEmptyB, ih]
    | false => simp [hp, List.filter_cons, seriesEmptyB, ih]

theorem drawBases_protos (cat : Catalog) (m : RawMetric) (bs : List (List Char)) (idx : ℕ) :
    (drawBases cat m bs idx).1.map Line.proto = bs.filter (fun p => !seriesEmptyB cat p) := by
  induction bs generalizing idx with
  | nil => rfl
  | cons p rest ih =>
    simp only [drawBases]
    cases hp : (nodesSorted cat p).isEmpty with
    | true => simp [hp, List.filter_cons, seriesEmptyB, ih]
    | false => simp [hp, List.filter_cons, seriesEmptyB, ih]

theorem drawVariants_msgs (cat : Catalog) (m : RawMetric) (cmap : List (List Char × ℕ))
    (bases : List (List Char)) (vs : List (List Char)) :
    (drawVariants cat m cmap bases vs).2
      = (vs.filter (fun p => seriesEmptyB cat p)).map (fun p => emrtSkipMsg ++ p) := by
  induction vs with
  | nil => rfl
  | cons p rest ih =>
    simp only [drawVariants, variantLine]
    cases hp : (nodesSorted cat p).isEmpty with
    | true => simp [hp, List.filter_cons, seriesEmptyB, ih]
    | false => simp [hp, List.filter_cons, seriesEmptyB, ih]

theorem drawVariants_protos (cat : Catalog) (m : RawMetric) (cmap : List (List Char × ℕ))
    (bases : List (List Char)) (vs : List (List Char)) :
    (drawVariants cat m cmap bases vs).1.map Line.proto
      = vs.filter (fun p => !seriesEmptyB cat p) := by
  induction vs with
  | nil => rfl
  | cons p rest ih =>
    simp only [drawVariants, variantLine]
    cases hp : (nodesSorted cat p).isEmpty with
    | true => simp [hp, List.filter_cons, seriesEmptyB, ih]
    | false => simp [hp, List.filter_cons, seriesEmptyB, ih]

theorem drawBasesD_protos (cat : Catalog) (dm : DMetric) (bs : List (List Char)) (idx : ℕ) :
    ∀ r, drawBasesD cat dm bs idx = some r
      → r.1.map Line.proto = bs.filter (fun p => !seriesEmptyB cat p) := by
  induction bs generalizing idx with
  | nil =>
    intro r h
    simp only [drawBasesD, Option.some.injEq] at h
    subst h
    rfl
  | cons p rest ih =>
    intro r h
    simp only [drawBasesD] at h
    cases hp : (nodesSorted cat p).isEmpty with
    | true =>
      rw [hp] at h
      simp only [if_true] at h
      simp [List.filter_cons, seriesEmptyB, hp, ih idx r h]
    | false =>
      rw [hp] at h
      simp only [Bool.false_eq_true, if_false] at h
      cases hpts : derivedPts cat dm p with
      | none => rw [hpts] at h; exact absurd h (by simp)
      | some pts =>
        rw [hpts] at h
        cases hrec : drawBasesD cat dm rest (idx + 1) with
        | none => rw [hrec] at h; exact absurd h (by simp)
        | some r2 =>
          rw [hrec] at h
          simp only [Option.some.injEq] at h
          subst h
          simp [List.filter_cons, seriesEmptyB, hp, ih (idx + 1) r2 hrec]

theorem drawVariantsD_protos (cat : Catalog) (dm : DMetric) (cmap : List (List Char × ℕ))
    (bases : List (List Char)) (vs : List (List Char)) :
    ∀ ls, drawVariantsD cat dm cmap bases vs = some ls
      → ls.map Line.proto = vs.filter (fun p => !seriesEmptyB cat p) := by
  induction vs with
  | nil =>
    intro ls h
    simp only [drawVariantsD, Option.some.injEq] at h
    subst h
    rfl
  | cons p rest ih =>
    intro ls h
    simp only [drawVariantsD] at h
    cases hp : (nodesSorted cat p).isEmpty with
    | true =>
      rw [hp] at h
      simp only [if_true] at h
      simp [List.filter_cons, seriesEmptyB, hp, ih ls h]
    | false =>
      rw [hp] at h
      simp only [Bool.false_eq_true, if_false] at h
      cases hpts : derivedPts cat dm p with
      | none => rw [hpts] at h; exact absurd h (by simp)
      | some pts =>
        rw [hpts] at h
        cases hrec : drawVariantsD cat dm cmap bases rest with
        | none => rw [hrec] at h; exact absurd h (by simp)
        | some ls2 =>
          rw [hrec] at h
          simp only [Option.some.injEq] at h
          subst h
          simp [List.filter_cons, seriesEmptyB, hp, ih ls2 hrec]

/-- Counterexample for C4: on a catalog whose single base protocol has
an empty series, `plot_metric` skips it with a diagnostic line but
`plot_derived` skips it with no diagnostic at all (its output carries an
empty diagnostic list), so the raw and derived chart paths do not behave
identically. -/
theorem c4_counterexample :
    (plot_metric demoEmptyCat RawMetric.delivery).2 = [baseSkipMsg ++ ("Prophet").toList]
    ∧ plot_derived demoEmptyCat DMetric.d_by_l = some ([], []) := by
  constructor
  · rfl
  · rfl

/-- C4 (amended): during rendering, every base or variant protocol with
an empty series is skipped by both chart paths; `plot_metric` prints one
diagnostic per skipped protocol, while `plot_derived` skips silently and
prints nothing. -/
theorem c4_amended_skip (cat : Catalog) (m : RawMetric) (dm : DMetric) :
    (plot_metric cat m).2
        = ((base_protocols cat).filter (fun p => seriesEmptyB cat p)).map
            (fun p => baseSkipMsg ++ p)
          ++ ((emrt_protocols cat).filter (fun p => seriesEmptyB cat p)).map
            (fun p => emrtSkipMsg ++ p)
    ∧ (plot_metric cat m).1.map Line.proto
        = (base_protocols cat).filter (fun p => !seriesEmptyB cat p)
          ++ (emrt_protocols cat).filter (fun p => !seriesEmptyB cat p)
    ∧ (∀ r, plot_derived cat dm = some r →
        r.2 = []
        ∧ r.1.map Line.proto
            = (base_protocols cat).filter (fun p => !seriesEmptyB cat p)
              ++ (emrt_protocols cat).filter (fun p => !seriesEmptyB cat p)) := by
  refine ⟨?_, ?_, ?_⟩
  · simp [plot_metric, drawBases_msgs, drawVariants_msgs]
  · simp [plot_metric, drawBases_protos, drawVariants_protos]
  · intro r h
    simp only [plot_derived] at h
    cases hb : drawBasesD cat dm (base_protocols cat) 0 with
    | none => rw [hb] at h; exact absurd h (by simp)
    | some b =>
      rw [hb] at h
      dsimp only [] at h
      cases hv : drawVariantsD cat dm b.2 (base_protocols cat) (emrt_protocols cat) with
      | none => rw [hv] at h; exact absurd h (by simp)
      | some v =>
        rw [hv] at h
        simp only [Option.some.injEq] at h
        subst h
        refine ⟨rfl, ?_⟩
        simp [drawBasesD_protos cat dm _ 0 b hb, drawVariantsD_protos cat dm _ _ _ v hv]

/-- Witness for C4 (amended): the derived path on the empty-series
catalog draws nothing and prints nothing. -/
theorem c4_witness :
    (([] : List Line), ([] : List (List Char))).2 = []
    ∧ (([] : List Line), ([] : List (List Char))).1.map Line.proto
        = (base_protocols demoEmptyCat).filter (fun p => !seriesEmptyB demoEmptyCat p)
          ++ (emrt_protocols demoEmptyCat).filter (fun p => !seriesEmptyB demoEmptyCat p) :=
  (c4_amended_skip demoEmptyCat RawMetric.delivery DMetric.d_by_l).2.2 ([], []) rfl

theorem strLe_refl (a : List Char) : strLe a a = true := by
  induction a with
  | nil => rfl
  | cons c t ih => simp [strLe, ih]

theorem strLe_total (a b : List Char) : strLe a b = true ∨ strLe b a = true := by
  induction a generalizing b with
  | nil => exact Or.inl rfl
  | cons c t ih =>
    cases b with
    | nil => exact Or.inr rfl
    | cons d u =>
      by_cases hcd : c = d
      · subst hcd
        rcases ih u with h | h
        · exact Or.inl (by simp [strLe, h])
        · exact Or.inr (by simp [strLe, h])
      · rcases lt_trichotomy c d with h | h | h
        · refine Or.inl ?_
          simp [strLe, hcd]
          exact h
        · exact absurd h hcd
        · refine Or.inr ?_
          simp [strLe, Ne.symm hcd]
          exact h

theorem strLe_trans {a b c : List Char} (h1 : strLe a b = true) (h2 : strLe b c = true) :
    strLe a c = true := by
  induction a generalizing b c with
  | nil => rfl
  | cons x t ih =>
    cases b with
    | nil => simp [strLe] at h1
    | cons y u =>
      cases c with
      | nil => simp [strLe] at h2
      | cons z v =>
        by_cases hxy : x = y <;> by_cases hyz : y = z
        · subst hxy; subst hyz
          simp only [strLe, if_pos rfl] at h1 h2 ⊢
          exact ih h1 h2
        · subst hxy
          simp only [strLe, if_pos rfl] at h1
          simp only [strLe, hyz, if_false, decide_eq_true_eq] at h2
          simp only [strLe]
          rw [if_neg hyz]
          simpa using h2
        · subst hyz
          simp only [strLe, hxy, if_false, decide_eq_true_eq] at h1
          simp only [strLe]
          rw [if_neg hxy]
          simpa using h1
        · simp only [strLe, hxy, if_false, decide_eq_true_eq] at h1
          simp only [strLe, hyz, if_false, decide_eq_true_eq] at h2
          have hxz : x < z := lt_trans h1 h2
          simp only [strLe]
          rw [if_neg (ne_of_lt hxz)]
          simpa using hxz

theorem strLe_antisymm {a b : List Char} (h1 : strLe a b = true) (h2 : strLe b a = true) :
    a = b := by
  induction a generalizing b with
  | nil =>
    cases b with
    | nil => rfl
    | cons y u => simp [strLe] at h2
  | cons x t ih =>
    cases b with
    | nil => simp [strLe] at h1
    | cons y u =>
      by_cases hxy : x = y
      · subst hxy
        simp only [strLe, if_pos rfl] at h1 h2
        rw [ih h1 h2]
      · simp only [strLe, hxy, if_false, decide_eq_true_eq] at h1
        simp only [strLe, Ne.symm hxy, if_false, decide_eq_true_eq] at h2
        exact absurd (lt_trans h1 h2) (lt_irrefl x)

instance strLeTrans : IsTrans (List Char) (fun a b => strLe a b = true) :=
  ⟨fun _ _ _ => strLe_trans⟩

instance strLeAntisymm : IsAntisymm (List Char) (fun a b => strLe a b = true) :=
  ⟨fun _ _ => strLe_antisymm⟩

instance strLeTotal : IsTotal (List Char) (fun a b => strLe a b = true) :=
  ⟨strLe_total⟩

theorem sortStr_perm (l : List (List Char)) : (sortStr l).Perm l :=
  List.perm_insertionSort _ l

theorem sortStr_sorted (l : List (List Char)) :
    List.Sorted (fun a b => strLe a b = true) (sortStr l) :=
  List.sorted_insertionSort _ l

theorem sortStr_eq_of_perm {l1 l2 : List (List Char)} (h : l1.Perm l2) :
    sortStr l1 = sortStr l2 :=
  List.eq_of_perm_of_sorted ((sortStr_perm l1).trans (h.trans (sortStr_perm l2).symm))
    (sortStr_sorted l1) (sortStr_sorted l2)

theorem char_eq_iff_toNat (a b : Char) : a = b ↔ a.toNat = b.toNat := by
  constructor
  · rintro rfl; rfl
  · intro h
    apply Char.ext
    apply UInt32.ext
    simpa [Char.toNat, UInt32.toNat] using h

theorem charToNat_ofNat (n : ℕ) (h : n.isValidChar) : (Char.ofNat n).toNat = n := by
  simp only [Char.ofNat, dif_pos h, Char.ofNatAux, Char.toNat, UInt32.toNat, BitVec.toNat_ofNatLt]

theorem beq_upper_eqCI (a b : Char) (h1 : 65 ≤ a.toNat) (h2 : a.toNat ≤ 90) :
    (a == Char.toUpper b) = eqCI a b := by
  apply Bool.eq_iff_iff.mpr
  simp only [beq_iff_eq, eqCI, Bool.or_eq_true, Bool.and_eq_true, decide_eq_true_eq,
    Nat.beq_eq_true_eq]
  simp only [Char.toUpper]
  split
  · next hrange =>
    have hofnat : (Char.ofNat (Char.toNat b - 32)).toNat = Char.toNat b - 32 :=
      charToNat_ofNat _ (Or.inl (by omega))
    rw [char_eq_iff_toNat, hofnat, char_eq_iff_toNat]
    constructor
    · intro h
      exact Or.inl (Or.inr ⟨⟨h1, h2⟩, by omega⟩)
    · rintro ((h | ⟨⟨-, -⟩, h⟩) | ⟨⟨hb1, hb2⟩, -⟩)
      · omega
      · omega
      · omega
  · next hrange =>
    rw [char_eq_iff_toNat]
    constructor
    · intro h
      exact Or.inl (Or.inl h)
    · rintro ((h | ⟨⟨-, -⟩, h⟩) | ⟨⟨hb1, hb2⟩, h⟩)
      · exact h
      · omega
      · omega

theorem upperCIStrip_eq (pat : List Char) (hp : ∀ c ∈ pat, 65 ≤ c.toNat ∧ c.toNat ≤ 90) :
    ∀ s : List Char, pat.isPrefixOf (upperL s) = (ciStrip pat s).isSome := by
  induction pat with
  | nil => intro s; simp [List.isPrefixOf, ciStrip]
  | cons a pr ih =>
    intro s
    cases s with
    | nil => simp [upperL, List.isPrefixOf, ciStrip]
    | cons b t =>
      have ha := hp a (by simp)
      have hab : (a == Char.toUpper b) = eqCI a b := beq_upper_eqCI a b ha.1 ha.2
      have iht := ih (fun c hc => hp c (by simp [hc])) t
      simp only [upperL] at iht
      cases heq : eqCI a b with
      | true => simp [List.isPrefixOf, upperL, ciStrip, hab, heq, iht]
      | false => simp [List.isPrefixOf, upperL, ciStrip, hab, heq]

theorem containsSub_upper_eq (pat : List Char)
    (hp : ∀ c ∈ pat, 65 ≤ c.toNat ∧ c.toNat ≤ 90) (s : List Char) :
    containsSub pat (upperL s) = ciContains pat s := by
  induction s with
  | nil => cases pat <;> rfl
  | cons b t ih =>
    have h1 := upperCIStrip_eq pat hp (b :: t)
    simp only [upperL, List.map_cons] at h1 ih ⊢
    simp only [containsSub, ciContains]
    rw [h1, ih]

theorem isVariantName_eq_ciContains (name : List Char) :
    isVariantName name = ciContains emrtMarker name :=
  containsSub_upper_eq emrtMarker (by decide) name

/-- C6: a catalog protocol name is classified into `emrt_protocols` iff
it contains the marker `EMRT` case-insensitively and into
`base_protocols` otherwise; and for a catalog whose keys are `Zeta`,
`Alpha`, `Beta-EMRT` in any insertion order, the base draw order is
`[Alpha, Zeta]` and the variant draw order is `[Beta-EMRT]`. -/
theorem c6_classification (cat cat2 : Catalog)
    (hperm : (catalogKeys cat2).Perm
      [("Zeta").toList, ("Alpha").toList, ("Beta-EMRT").toList]) :
    (∀ name, (name ∈ emrt_protocols cat
        ↔ name ∈ catalogKeys cat ∧ ciContains emrtMarker name = true)
      ∧ (name ∈ base_protocols cat
        ↔ name ∈ catalogKeys cat ∧ ciContains emrtMarker name = false))
    ∧ base_protocols cat2 = [("Alpha").toList, ("Zeta").toList]
    ∧ emrt_protocols cat2 = [("Beta-EMRT").toList] := by
  refine ⟨fun name => ⟨?_, ?_⟩, ?_, ?_⟩
  · rw [emrt_protocols, (sortStr_perm _).mem_iff, List.mem_filter,
      isVariantName_eq_ciContains]
  · rw [base_protocols, (sortStr_perm _).mem_iff, List.mem_filter]
    simp [isVariantName_eq_ciContains, Bool.not_eq_true']
  · rw [base_protocols, sortStr_eq_of_perm (hperm.filter _)]
    decide
  · rw [emrt_protocols, sortStr_eq_of_perm (hperm.filter _)]
    decide

/-- Witness for C6 at the concrete catalogs: `A-EMRT` is classified as
a variant of `demoPairCat`, and the scrambled-order catalog sorts to the
required draw orders. -/
theorem c6_witness :
    ((("A-EMRT").toList ∈ emrt_protocols demoPairCat
        ↔ ("A-EMRT").toList ∈ catalogKeys demoPairCat
          ∧ ciContains emrtMarker (("A-EMRT").toList) = true)
      ∧ (("A-EMRT").toList ∈ base_protocols demoPairCat
        ↔ ("A-EMRT").toList ∈ catalogKeys demoPairCat
          ∧ ciContains emrtMarker (("A-EMRT").toList) = false))
    ∧ base_protocols demoOrderCat = [("Alpha").toList, ("Zeta").toList]
    ∧ emrt_protocols demoOrderCat = [("Beta-EMRT").toList] := by
  have h := c6_classification demoPairCat demoOrderCat (by decide)
  exact ⟨h.1 (("A-EMRT").toList), h.2.1, h.2.2⟩

theorem sortStr_nodup {l : List (List Char)} (h : l.Nodup) : (sortStr l).Nodup :=
  ((sortStr_perm l).nodup_iff).mpr h

theorem base_protocols_nodup {cat : Catalog} (h : (catalogKeys cat).Nodup) :
    (base_protocols cat).Nodup :=
  sortStr_nodup (h.filter _)

theorem drawBases_cmap_line (cat : Catalog) (m : RawMetric) :
    ∀ (bs : List (List Char)) (idx : ℕ), bs.Nodup →
      ∀ L ∈ (drawBases cat m bs idx).1,
        (drawBases cat m bs idx).2.2.lookup L.proto = L.color := by
  intro bs
  induction bs with
  | nil =>
    intro idx _ L hL
    simp [drawBases] at hL
  | cons p rest ih =>
    intro idx hnd L hL
    simp only [drawBases] at hL ⊢
    cases hp : (nodesSorted cat p).isEmpty with
    | true =>
      rw [if_pos hp] at hL
      rw [if_pos rfl]
      exact ih idx hnd.of_cons L hL
    | false =>
      rw [if_neg (by simp [hp])] at hL
      rw [if_neg (by simp)]
      rcases List.mem_cons.mp hL with rfl | hL2
      · simp [List.lookup]
      · have hproto : L.proto ∈ rest.filter (fun q => !seriesEmptyB cat q) := by
          rw [← drawBases_protos cat m rest (idx + 1)]
          exact List.mem_map_of_mem _ hL2
        have hne2 : L.proto ≠ p := by
          intro he
          have hmem : L.proto ∈ rest := (List.mem_filter.mp hproto).1
          rw [he] at hmem
          exact (List.nodup_cons.mp hnd).1 hmem
        have hbe : (L.proto == p) = false := beq_eq_false_iff_ne.mpr hne2
        have hlk := ih (idx + 1) (List.nodup_cons.mp hnd).2 L hL2
        simp [List.lookup, hbe, hlk]

theorem drawVariants_mem (cat : Catalog) (m : RawMetric) (cmap : List (List Char × ℕ))
    (bases : List (List Char)) :
    ∀ (vs : List (List Char)) (p : List Char) (L : Line), p ∈ vs →
      variantLine cat m cmap bases p = some L →
      L ∈ (drawVariants cat m cmap bases vs).1 := by
  intro vs
  induction vs with
  | nil =>
    intro p L hp
    simp at hp
  | cons q rest ih =>
    intro p L hp hL
    simp only [drawVariants]
    rcases List.mem_cons.mp hp with rfl | hp2
    · simp only [hL]
      exact List.mem_cons_self _ _
    · cases hq : variantLine cat m cmap bases q with
      | none =>
        simp only [hq]
        exact ih p L hp2 hL
      | some L2 =>
        simp only [hq]
        exact List.mem_cons_of_mem _ (ih p L hp2 hL)

theorem find?_sorted_least {l : List (List Char)} {pq : List Char → Bool} {b : List Char}
    (hs : List.Pairwise (fun a c => strLe a c = true) l)
    (h : l.find? pq = some b) : ∀ x ∈ l, pq x = true → strLe b x = true := by
  induction l with
  | nil => simp at h
  | cons a t ih =>
    intro x hx hpx
    cases ha : pq a with
    | true =>
      simp only [List.find?, ha] at h
      have hab : a = b := by simpa using h
      subst hab
      rcases List.mem_cons.mp hx with rfl | hx2
      · exact strLe_refl x
      · exact (List.pairwise_cons.mp hs).1 x hx2
    | false =>
      simp only [List.find?, ha] at h
      rcases List.mem_cons.mp hx with rfl | hx2
      · rw [hpx] at ha; cases ha
      · exact ih (List.pairwise_cons.mp hs).2 h x hx2 hpx

theorem matchBase_spec {bases : List (List Char)} {proto b : List Char}
    (hs : List.Pairwise (fun a c => strLe a c = true) bases)
    (h : matchBase bases proto = some b) :
    b ∈ bases
    ∧ containsSub (lowerL b) (removeEmrt (lowerL proto)) = true
    ∧ ∀ b2 ∈ bases, containsSub (lowerL b2) (removeEmrt (lowerL proto)) = true
        → strLe b b2 = true := by
  have h2 : bases.find? (fun q => containsSub (lowerL q) (removeEmrt (lowerL proto))) = some b := h
  refine ⟨List.mem_of_find?_eq_some h2, ?_, ?_⟩
  · have h3 := @List.find?_some _ _ _ _ h2
    simpa using h3
  · intro b2 hb2 hc
    exact find?_sorted_least hs h2 b2 hb2 (by simpa using hc)

/-- C7: for every drawn variant protocol, its matched base is the least
base in lexicographic order over the base set whose lowercased name is
contained in the variant's lowercased name with the `emrt` marker
removed; the variant line takes the color recorded for the matched base
(the base line's own color), and an unmatched variant is drawn with the
unset color. -/
theorem c7_variant_matching (cat : Catalog) (m : RawMetric) (p : List Char)
    (hnd : (catalogKeys cat).Nodup)
    (hv : p ∈ emrt_protocols cat) (hne : seriesEmptyB cat p = false) :
    ∃ L, variantLine cat m (drawBases cat m (base_protocols cat) 0).2.2
          (base_protocols cat) p = some L
      ∧ L ∈ (plot_metric cat m).1
      ∧ L.color = (matchBase (base_protocols cat) p).bind
          (fun b => (drawBases cat m (base_protocols cat) 0).2.2.lookup b)
      ∧ (matchBase (base_protocols cat) p = none → L.color = none)
      ∧ ∀ b, matchBase (base_protocols cat) p = some b →
          b ∈ base_protocols cat
          ∧ containsSub (lowerL b) (removeEmrt (lowerL p)) = true
          ∧ (∀ b2 ∈ base_protocols cat,
              containsSub (lowerL b2) (removeEmrt (lowerL p)) = true → strLe b b2 = true)
          ∧ ∀ Lb ∈ (drawBases cat m (base_protocols cat) 0).1, Lb.proto = b
              → L.color = Lb.color := by
  have hne2 : (nodesSorted cat p).isEmpty = false := hne
  have hLdef : variantLine cat m (drawBases cat m (base_protocols cat) 0).2.2
      (base_protocols cat) p
      = some ⟨p, pointsFor cat p m, true,
          (matchBase (base_protocols cat) p).bind
            (fun b => (drawBases cat m (base_protocols cat) 0).2.2.lookup b)⟩ := by
    simp [variantLine, hne2]
  refine ⟨_, hLdef, ?_, rfl, ?_, ?_⟩
  · have hmem := drawVariants_mem cat m _ _ (emrt_protocols cat) p _ hv hLdef
    simp only [plot_metric]
    exact List.mem_append_right _ hmem
  · intro hnone
    simp [hnone]
  · intro b hb
    have hspec := matchBase_spec (sortStr_sorted _) hb
    refine ⟨hspec.1, hspec.2.1, hspec.2.2, ?_⟩
    intro Lb hLb hpb
    have hcoh := drawBases_cmap_line cat m (base_protocols cat) 0
      (base_protocols_nodup hnd) Lb hLb
    rw [hpb] at hcoh
    simp [hb, hcoh]

/-- Witness for C7: in the two-protocol catalog, the variant `A-EMRT` is
drawn, matched to base `A` (the least matching base), and shares its
color. -/
theorem c7_witness :
    ∃ L, variantLine demoPairCat RawMetric.delivery
          (drawBases demoPairCat RawMetric.delivery (base_protocols demoPairCat) 0).2.2
          (base_protocols demoPairCat) (("A-EMRT").toList) = some L
      ∧ L ∈ (plot_metric demoPairCat RawMetric.delivery).1
      ∧ L.color = (matchBase (base_protocols demoPairCat) (("A-EMRT").toList)).bind
          (fun b => (drawBases demoPairCat RawMetric.delivery
            (base_protocols demoPairCat) 0).2.2.lookup b)
      ∧ (matchBase (base_protocols demoPairCat) (("A-EMRT").toList) = none → L.color = none)
      ∧ ∀ b, matchBase (base_protocols demoPairCat) (("A-EMRT").toList) = some b →
          b ∈ base_protocols demoPairCat
          ∧ containsSub (lowerL b) (removeEmrt (lowerL (("A-EMRT").toList))) = true
          ∧ (∀ b2 ∈ base_protocols demoPairCat,
              containsSub (lowerL b2) (removeEmrt (lowerL (("A-EMRT").toList))) = true
                → strLe b b2 = true)
          ∧ ∀ Lb ∈ (drawBases demoPairCat RawMetric.delivery
                (base_protocols demoPairCat) 0).1, Lb.proto = b
              → L.color = Lb.color :=
  c7_variant_matching demoPairCat RawMetric.delivery (("A-EMRT").toList)
    (by decide) (by decide) (by decide)
